import Mathlib

/-!
Verification of the Reactive State & Subscription Engine of the
mini-framework repository (src/core/state/*, src/core/dom/vnode.js
modules `StateSecurity`, `SubscribersManager`, `ComputedManager`,
`ReactiveState`).

The engine's JavaScript data is modelled by the inductive `JSVal`
(plain JSON-like values: scalars, objects as insertion-ordered
association lists, arrays as element lists plus non-index string
properties).  Model scope, noted where relevant below: property access
is own-property access (prototype-chain lookups such as `"abc".length`
are outside the model), object keys keep insertion order (the JS
integer-like-key reordering of `Object.entries` is not modelled, no
theorem below depends on key order of mixed keys), and subscriber
identity (`Symbol('subscriber')`) is modelled by a unique natural
number.
-/

inductive JSVal where
  | undefined : JSVal
  | null : JSVal
  | bool : Bool → JSVal
  | num : Int → JSVal
  | str : String → JSVal
  /-- a plain object: fields in insertion order -/
  | obj : List (String × JSVal) → JSVal
  /-- an array: elements, plus non-index own string properties -/
  | arr : List JSVal → List (String × JSVal) → JSVal

namespace JSVal

/-- JS truthiness of a value. -/
def truthy : JSVal → Bool
  | .undefined => false
  | .null => false
  | .bool b => b
  | .num n => n != 0
  | .str s => s != ""
  | .obj _ => true
  | .arr _ _ => true

/-- `typeof v === 'object' && v` — a truthy value of object type
(a plain object or an array; `null` is falsy). -/
def isObjLike : JSVal → Bool
  | .obj _ => true
  | .arr _ _ => true
  | _ => false

def isUndefined : JSVal → Bool
  | .undefined => true
  | _ => false

end JSVal

/-- Lookup in an insertion-ordered association list (first match). -/
def assocFind : List (String × JSVal) → String → Option JSVal
  | [], _ => none
  | (k, v) :: rest, key => if k = key then some v else assocFind rest key

/-- JS property assignment on a plain object: update an existing key in
place (keeping its position) or append a new key at the end. -/
def assocSet : List (String × JSVal) → String → JSVal → List (String × JSVal)
  | [], key, v => [(key, v)]
  | (k, w) :: rest, key, v =>
    if k = key then (k, v) :: rest else (k, w) :: assocSet rest key v

/-- Digits of a decimal string, as a number (helper for array indices). -/
def digitsToNat : List Char → Nat → Nat
  | [], acc => acc
  | c :: cs, acc => digitsToNat cs (acc * 10 + (c.toNat - '0'.toNat))

/-- A string that is a canonical array index ("0", "1", ..., no leading
zeros).  Such keys address array elements; any other key addresses an
ordinary property. -/
def canonIdx (s : String) : Option Nat :=
  match s.toList with
  | [] => none
  | c :: cs =>
    if (c :: cs).all Char.isDigit && (c != '0' || cs.isEmpty) then
      some (digitsToNat (c :: cs) 0)
    else none

/-- Write element `i` of an array, extending with holes (read back as
`undefined`) when `i` is past the end. -/
def padSet : List JSVal → Nat → JSVal → List JSVal
  | es, i, v =>
    if i < es.length then es.set i v
    else es ++ List.replicate (i - es.length) JSVal.undefined ++ [v]

namespace JSVal

/-- Own-property read, `o[key]`: absent properties read as `undefined`;
on an array a canonical-index key reads an element.  Scalars have no
own properties (prototype-chain lookups are outside the model). -/
def propGet : JSVal → String → JSVal
  | .obj fs, key => (assocFind fs key).getD .undefined
  | .arr es ps, key =>
    match canonIdx key with
    | some i => es.getD i .undefined
    | none => (assocFind ps key).getD .undefined
  | _, _ => .undefined

/-- Own-property write, `o[key] = v` (no effect on scalars; the engine
never writes properties of scalars). -/
def propSet : JSVal → String → JSVal → JSVal
  | .obj fs, key, v => .obj (assocSet fs key v)
  | .arr es ps, key, v =>
    match canonIdx key with
    | some i => .arr (padSet es i v) ps
    | none => .arr es (assocSet ps key v)
  | t, _, _ => t

end JSVal

/-- JS strict equality `===` as used by the engine's change checks,
where the right operand is freshly produced by `sanitizeState` or a
compute function: scalars compare by value; a comparison involving a
freshly constructed object or array is reference inequality, hence
`false`. -/
def strictEq : JSVal → JSVal → Bool
  | .undefined, .undefined => true
  | .null, .null => true
  | .bool a, .bool b => a == b
  | .num a, .num b => a == b
  | .str a, .str b => a == b
  | _, _ => false

/-- A string that is empty or whitespace only (`s.trim() === ''`). -/
def isBlank (s : String) : Bool :=
  s.toList.all Char.isWhitespace

/-- `path.split('.')` of JS, as a structurally recursive splitter
(`"" ↦ [""]`, `"a..b" ↦ ["a","","b"]`). -/
def splitDotAux : List Char → List Char → List String
  | [], acc => [String.mk acc.reverse]
  | c :: cs, acc =>
    if c = '.' then String.mk acc.reverse :: splitDotAux cs []
    else splitDotAux cs (c :: acc)

def splitDot (s : String) : List String :=
  splitDotAux s.toList []

/-- StateSecurity.validateKey: rejects the three reserved
prototype-escaping keys. -/
def validateKey (key : String) : Bool :=
  !(key == "__proto__" || key == "constructor" || key == "prototype")

/-- StateSecurity.validatePath with the default `maxDepth = 50`:
rejects blank paths and paths of more than 50 dot-separated segments
(path arguments are strings in the model; the non-string rejection
branch is outside it). -/
def validatePath (path : String) : Bool :=
  if isBlank path then false
  else if (splitDot path).length > 50 then false
  else true

mutual

/-- StateSecurity.sanitizeState: recursively copies a value, dropping
at every object level the reserved keys and keys that are blank after
trimming.  Arrays are copied element-wise (their extra properties are
dropped by `state.map`).  The code has no recursion ceiling. -/
def sanitizeState : JSVal → JSVal
  | .obj fs => .obj (sanitizeFields fs)
  | .arr es _ => .arr (sanitizeElems es) []
  | v => v

def sanitizeFields : List (String × JSVal) → List (String × JSVal)
  | [] => []
  | (k, v) :: rest =>
    if k == "__proto__" || k == "constructor" || k == "prototype" then
      sanitizeFields rest
    else if isBlank k then
      sanitizeFields rest
    else
      (k, sanitizeState v) :: sanitizeFields rest

def sanitizeElems : List JSVal → List JSVal
  | [] => []
  | v :: rest => sanitizeState v :: sanitizeElems rest

end

mutual

/-- Nesting depth of a value (a scalar has depth 0). -/
def jsDepth : JSVal → Nat
  | .obj fs => jsDepthFields fs + 1
  | .arr es _ => jsDepthElems es + 1
  | _ => 0

def jsDepthFields : List (String × JSVal) → Nat
  | [] => 0
  | (_, v) :: rest => max (jsDepth v) (jsDepthFields rest)

def jsDepthElems : List JSVal → Nat
  | [] => 0
  | v :: rest => max (jsDepth v) (jsDepthElems rest)

end

mutual

/-- No reserved key occurs at any nesting level. -/
def reservedFree : JSVal → Bool
  | .obj fs => reservedFreeFields fs
  | .arr es _ => reservedFreeElems es
  | _ => true

def reservedFreeFields : List (String × JSVal) → Bool
  | [] => true
  | (k, v) :: rest => validateKey k && reservedFree v && reservedFreeFields rest

def reservedFreeElems : List JSVal → Bool
  | [] => true
  | v :: rest => reservedFree v && reservedFreeElems rest

end

/-- The segment walk of ReactiveState.get, i.e. the body of
`keys.reduce((obj, key) => ..., this.state)`: an invalid key yields
`undefined` (and the reduce continues with `undefined`); otherwise the
accumulator advances to `obj && obj[key] !== undefined ? obj[key] :
undefined`. -/
def getSegs : JSVal → List String → JSVal
  | acc, [] => acc
  | acc, k :: ks =>
    if !validateKey k then getSegs .undefined ks
    else
      let x := acc.propGet k
      getSegs (if acc.truthy && !x.isUndefined then x else .undefined) ks

/-- ReactiveState.get: the whole tree when the path is omitted or falsy
(the empty string), `undefined` when `validatePath` fails, otherwise
the segment walk.  The model is total, matching "never throws". -/
def rsGet (tree : JSVal) : Option String → JSVal
  | none => tree
  | some path =>
    if path = "" then tree
    else if !validatePath path then .undefined
    else getSegs tree (splitDot path)

/-- The navigation/assignment core of ReactiveState.setByPath: walk the
leading keys (`keys.reduce`), skipping a key that fails `validateKey`
(the code stays at the same object and continues), auto-vivifying a
missing or non-object child as `{}`, then assign the last key at the
reached parent.  Returns the updated tree and the old value found at
the final slot (read before the assignment). -/
def navAssign : JSVal → List String → String → JSVal → JSVal × JSVal
  | t, [], lastKey, w => (t.propSet lastKey w, t.propGet lastKey)
  | t, k :: ks, lastKey, w =>
    if !validateKey k then navAssign t ks lastKey w
    else
      let child := t.propGet k
      let child' := if child.isObjLike then child else .obj []
      let r := navAssign child' ks lastKey w
      (t.propSet k r.1, r.2)

/-- ReactiveState.setByPath: validate the path, reject a reserved last
key, sanitize the value, navigate/assign, and report the changed path
when the strict-equality change check fires (`oldValue !==
sanitizedValue`); `none` means no notification. -/
def rsSetByPath (t : JSVal) (path : String) (v : JSVal) : JSVal × Option String :=
  if !validatePath path then (t, none)
  else
    let keys := splitDot path
    let lastKey := keys.getLastD ""
    if !validateKey lastKey then (t, none)
    else
      let w := sanitizeState v
      let r := navAssign t keys.dropLast lastKey w
      (r.1, if strictEq r.2 w then none else some path)

/-- The walk described by the specification of `get`: return
`undefined` the moment a segment fails `validateKey`, the intermediate
value is not an object, or the segment is missing. -/
def walkSpec : JSVal → List String → JSVal
  | t, [] => t
  | t, k :: ks =>
    if !validateKey k then .undefined
    else if !t.isObjLike then .undefined
    else
      let x := t.propGet k
      if x.isUndefined then .undefined else walkSpec x ks

/-!
The Subscription Dispatcher (SubscribersManager) together with the
Store (ReactiveState).  Subscriber callbacks are embedded as small
programs over the engine's own API: a callback is a list of `Act`ions
(a store write, a store read, an unsubscribe-handle call, or nothing).
Callbacks in the model do not register new subscribers and do not
throw, so the dispatcher's catch/evict branch for throwing callbacks
is dead here.

`this.state` is a mutable reference to the current root object;
path-sets mutate the referenced object in place, while an object-merge
set replaces the root with a fresh object.  The model keeps a heap of
root objects (`heap`) and an index for the current root (`curRoot`);
a captured `state` argument is a heap index, read back at use time.
The deferred `setTimeout(..., 0)` replay is modelled by an explicit
FIFO task queue (`tasks`) drained after the triggering call returns.
The `eventEmitter.emit('state:change', ...)` call goes to an external
collaborator and has no effect on the engine's state; it is not
modelled.
-/

inductive Act where
  /-- `set(path, value)` with a string path, from inside a callback -/
  | setPath : String → JSVal → Act
  /-- `set(partialTree)` with an object: shallow-merge into the root -/
  | setMerge : List (String × JSVal) → Act
  /-- read `get(path)`; the observed value is recorded in the trace -/
  | getObs : String → Act
  /-- invoke the unsubscribe handle of subscriber `id` on `path` -/
  | unsub : String → Nat → Act
  | noop : Act

/-- A registered subscriber: `Symbol('subscriber')` identity is
modelled by a unique natural number (`createdAt` is irrelevant and
omitted). -/
structure Subscriber where
  id : Nat
  cb : List Act

/-- The registry `Map(path → Set(subscriber))`, in insertion order. -/
abbrev Registry := List (String × List Subscriber)

/-- A scheduled deferred pass: the captured `state` root reference and
the drained pending paths, in insertion order. -/
structure Deferred where
  rootRef : Nat
  paths : List String

structure Engine where
  heap : List JSVal
  curRoot : Nat
  registry : Registry
  isUpdating : Bool
  pending : List String
  updateCount : Nat
  tasks : List Deferred

/-- Observable events of a run. -/
inductive Event where
  /-- a subscriber callback invocation `(wildcard?, id, firstArg,
  changedPath)` -/
  | invoke : Bool → Nat → JSVal → String → Event
  /-- a `get` observation made inside callback `id` -/
  | obs : Nat → String → JSVal → Event
  /-- the per-cycle budget was exceeded; the burst is aborted -/
  | stormAbort : Event

def heapAt (e : Engine) (r : Nat) : JSVal :=
  e.heap.getD r .undefined

def Engine.tree (e : Engine) : JSVal :=
  heapAt e e.curRoot

/-- Mutate the current root object in place. -/
def setTree (e : Engine) (t : JSVal) : Engine :=
  { e with heap := e.heap.set e.curRoot t }

def subsAt (reg : Registry) (path : String) : List Subscriber :=
  match reg with
  | [] => []
  | (q, l) :: rest => if q = path then l else subsAt rest path

/-- `this.subscribers.has(path)`. -/
def hasPath (reg : Registry) (path : String) : Bool :=
  match reg with
  | [] => false
  | (q, _) :: rest => q = path || hasPath rest path

/-- The unsubscribe handle: delete the subscriber from its path's set
and drop the path entry when the set becomes empty.  Set deletion is
by the subscriber object's identity, modelled by its unique id. -/
def unsubReg : Registry → String → Nat → Registry
  | [], _, _ => []
  | (q, l) :: rest, path, i =>
    if q = path then
      let l' := l.filter (fun s => s.id ≠ i)
      if l'.isEmpty then rest else (q, l') :: rest
    else (q, l) :: unsubReg rest path i

/-- `pendingUpdates.add(path)` (a `Set`: dedup, insertion order). -/
def addPending (l : List String) (p : String) : List String :=
  if p ∈ l then l else l ++ [p]

/-- One callback action.  A `set` issued here runs while the
dispatcher `isUpdating` flag is up, so the notify call it triggers
always takes the `pendingUpdates.add(changedPath); return` branch of
`notifySubscribers`; that branch is inlined below. -/
def runAction (e : Engine) (sid : Nat) : Act → Engine × List Event
  | .noop => (e, [])
  | .getObs p => (e, [.obs sid p (rsGet e.tree (some p))])
  | .unsub path i => ({ e with registry := unsubReg e.registry path i }, [])
  | .setPath p v =>
    let r := rsSetByPath e.tree p v
    match r.2 with
    | none => (setTree e r.1, [])
    | some np =>
      let e' := setTree e r.1
      ({ e' with pending := addPending e'.pending np }, [])
  | .setMerge fields =>
    let merged :=
      match e.tree with
      | .obj fs => JSVal.obj (List.foldl (fun acc (kv : String × JSVal) => assocSet acc kv.1 kv.2) fs (sanitizeFields fields))
      | _ => JSVal.obj (sanitizeFields fields)
    let e := { e with heap := e.heap ++ [merged], curRoot := e.heap.length }
    ({ e with pending := addPending e.pending "*" }, [])

def runActions (e : Engine) (sid : Nat) : List Act → Engine × List Event
  | [] => (e, [])
  | a :: as =>
    let r₁ := runAction e sid a
    let r₂ := runActions r₁.1 sid as
    (r₂.1, r₁.2 ++ r₂.2)

/-- One dispatch pass over a snapshot of a path's subscriber set
(notifyPathSubscribers / notifyGlobalSubscribers).  JS `Set.forEach`
iterates the live set, so a subscriber deleted by an earlier callback
of the same pass is skipped: before invoking, the model re-checks that
the subscriber is still registered under `passPath`.  `mkArg` produces
the callback's first argument at invocation time (`getValue(changedPath)`
for a path pass, the captured `state` reference for the global pass). -/
def runPass (passPath : String) (mkArg : Engine → JSVal) (changedPath : String) :
    List Subscriber → Engine → Engine × List Event
  | [], e => (e, [])
  | s :: rest, e =>
    if (subsAt e.registry passPath).any (fun x => x.id == s.id) then
      let arg := mkArg e
      let r₁ := runActions e s.id s.cb
      let r₂ := runPass passPath mkArg changedPath rest r₁.1
      (r₂.1, .invoke (passPath == "*") s.id arg changedPath :: (r₁.2 ++ r₂.2))
    else runPass passPath mkArg changedPath rest e

/-- The path-subscriber pass of notifySubscribers:
`if (changedPath !== '*' && this.subscribers.has(changedPath))
notifyPathSubscribers(changedPath, getValue)`, where each callback's
first argument is `getValue(changedPath)` evaluated at its invocation. -/
def pathPassRun (e : Engine) (changedPath : String) : Engine × List Event :=
  if changedPath ≠ "*" ∧ hasPath e.registry changedPath then
    runPass changedPath (fun e' => rsGet e'.tree (some changedPath)) changedPath
      (subsAt e.registry changedPath) e
  else (e, [])

/-- The wildcard pass of notifySubscribers:
`if (this.subscribers.has('*')) notifyGlobalSubscribers(state,
changedPath)`, where each callback's first argument is the captured
`state` root reference, read at its invocation. -/
def globalPassRun (e : Engine) (rootRef : Nat) (changedPath : String) : Engine × List Event :=
  if hasPath e.registry "*" then
    runPass "*" (fun e' => heapAt e' rootRef) changedPath (subsAt e.registry "*") e
  else (e, [])

/-- The dispatch proper of SubscribersManager.notifySubscribers: path
subscribers run, then global subscribers; a non-empty pending set is
drained into one scheduled task capturing this call's `state`
argument, and in that case `updateCount` is not reset. -/
def dispatchBody (e : Engine) (rootRef : Nat) (changedPath : String) : Engine × List Event :=
  let r₁ := pathPassRun e changedPath
  let r₂ := globalPassRun r₁.1 rootRef changedPath
  let e₂ := { r₂.1 with isUpdating := false }
  if e₂.pending.isEmpty then
    ({ e₂ with updateCount := 0 }, r₁.2 ++ r₂.2)
  else
    ({ e₂ with pending := [], tasks := e₂.tasks ++ [⟨rootRef, e₂.pending⟩] }, r₁.2 ++ r₂.2)

/-- SubscribersManager.notifySubscribers, with the captured `state`
argument as a root reference: reentrant calls defer
(`pendingUpdates.add`); the per-cycle counter is incremented and
checked on entry (`maxUpdatesPerCycle = 100`), aborting the burst and
clearing the pending set when exceeded; otherwise the dispatch body
runs with the counter incremented and `isUpdating` raised. -/
def notifySubs (e : Engine) (rootRef : Nat) (changedPath : String) : Engine × List Event :=
  if e.isUpdating then
    ({ e with pending := addPending e.pending changedPath }, [])
  else if e.updateCount + 1 > 100 then
    ({ e with updateCount := 0, pending := [] }, [.stormAbort])
  else
    dispatchBody { e with updateCount := e.updateCount + 1, isUpdating := true }
      rootRef changedPath

/-- A top-level (user-initiated) `set(path, value)` on an idle engine:
ReactiveState.set with a string argument runs setByPath and, when the
change check fires, notifies with `this.state` (the current root
reference) and the changed path. -/
def rsUserSetPath (e : Engine) (p : String) (v : JSVal) : Engine × List Event :=
  let r := rsSetByPath e.tree p v
  match r.2 with
  | none => (setTree e r.1, [])
  | some np => notifySubs (setTree e r.1) (setTree e r.1).curRoot np

/-- One deferred `setTimeout` callback: replay every drained path with
the captured `state` and `getValue`, then reset the counter. -/
def runTask (e : Engine) (t : Deferred) : Engine × List Event :=
  let r := List.foldl
    (fun (acc : Engine × List Event) p =>
      let r₁ := notifySubs acc.1 t.rootRef p
      (r₁.1, acc.2 ++ r₁.2))
    (e, []) t.paths
  ({ r.1 with updateCount := 0 }, r.2)

/-- Drain the macrotask queue, FIFO, with fuel. -/
def drive : Nat → Engine → Engine × List Event
  | 0, e => (e, [])
  | n + 1, e =>
    match e.tasks with
    | [] => (e, [])
    | t :: ts =>
      let r₁ := runTask { e with tasks := ts } t
      let r₂ := drive n r₁.1
      (r₂.1, r₁.2 ++ r₂.2)

/-!
The Computed Registry (ComputedManager) and the subscribe entry point
it uses.  `SubscribersManager.subscribe` is modelled for the
well-formed call shape `subscribe(path, callback)`; the total-count
ceiling (`maxSubscribers = 1000`) refuses registrations at the limit.
-/

/-- Total number of registered subscribers
(`Array.from(this.subscribers.values()).reduce(...)`). -/
def totalSubs (reg : Registry) : Nat :=
  (reg.map (fun ql => ql.2.length)).sum

/-- Append a subscriber to its path's set (a fresh `Set` entry is
created for a new path, at the end of the Map's insertion order). -/
def addSub : Registry → String → Subscriber → Registry
  | [], path, s => [(path, [s])]
  | (q, l) :: rest, path, s =>
    if q = path then (q, l ++ [s]) :: rest
    else (q, l) :: addSub rest path s

/-- SubscribersManager.subscribe for a string path and a function
callback: refuse (no-op) at the subscriber ceiling, else register a
subscriber with a fresh identity. -/
def subscribeReg (reg : Registry) (path : String) (cb : List Act) (id : Nat) : Registry :=
  if 1000 ≤ totalSubs reg then reg
  else addSub reg path ⟨id, cb⟩

/-- ComputedManager state: the computed value cache
(`computedCache : Map(name → value)`). -/
abbrev ComputedCache := List (String × JSVal)

def cacheFind : ComputedCache → String → Option JSVal
  | [], _ => none
  | (k, v) :: rest, key => if k = key then some v else cacheFind rest key

def cacheSet : ComputedCache → String → JSVal → ComputedCache
  | [], key, v => [(key, v)]
  | (k, w) :: rest, key, v =>
    if k = key then (k, v) :: rest else (k, w) :: cacheSet rest key v

/-- The body of the dependency subscription installed by
ComputedManager.computed: on a dependency notification, recompute
(`newValue`, passed in as the result of `computeFn()`), compare with
the cached value by strict equality, and on change update the cache
and register one extra no-op subscriber on `computed.<name>`.
`Map.get` on an absent name reads as `undefined`. -/
def computedDepFire (cache : ComputedCache) (reg : Registry) (nid : Nat)
    (name : String) (newValue : JSVal) : ComputedCache × Registry × Nat :=
  let oldValue := (cacheFind cache name).getD .undefined
  if strictEq newValue oldValue then (cache, reg, nid)
  else
    (cacheSet cache name newValue,
     subscribeReg reg ("computed." ++ name) [] nid,
     nid + 1)

/-- A sequence of dependency firings for one computed entry, given the
successive recomputation results. -/
def computedDepFires (cache : ComputedCache) (reg : Registry) (nid : Nat)
    (name : String) : List JSVal → ComputedCache × Registry × Nat
  | [] => (cache, reg, nid)
  | v :: vs =>
    let (c', r', n') := computedDepFire cache reg nid name v
    computedDepFires c' r' n' name vs

/-- An idle engine with the given root and registry. -/
def mkEngine (root : JSVal) (reg : Registry) : Engine :=
  { heap := [root], curRoot := 0, registry := reg,
    isUpdating := false, pending := [], updateCount := 0, tasks := [] }

/-- A value nested `n + 1` levels deep (a chain of singleton objects
under the harmless key "k", ending in a scalar). -/
def deepNest : Nat → JSVal
  | 0 => .num 1
  | n + 1 => .obj [("k", deepNest n)]

/-!
Theorems.  Each claim of the specification is settled below; shared
helper lemmas come first.
-/

theorem jsDepth_deepNest : ∀ n, jsDepth (deepNest n) = n
  | 0 => rfl
  | n + 1 => by
    simp [deepNest, jsDepth, jsDepthFields, jsDepth_deepNest n]

theorem sanitizeState_deepNest : ∀ n, sanitizeState (deepNest n) = deepNest n
  | 0 => rfl
  | n + 1 => by
    simp [deepNest, sanitizeState, sanitizeFields, isBlank,
      sanitizeState_deepNest n]

mutual

theorem reservedFree_sanitizeState : ∀ v : JSVal, reservedFree (sanitizeState v) = true
  | .undefined => rfl
  | .null => rfl
  | .bool _ => rfl
  | .num _ => rfl
  | .str _ => rfl
  | .obj fs => by
    simpa [sanitizeState, reservedFree] using reservedFree_sanitizeFields fs
  | .arr es ps => by
    simpa [sanitizeState, reservedFree] using reservedFree_sanitizeElems es

theorem reservedFree_sanitizeFields :
    ∀ fs : List (String × JSVal), reservedFreeFields (sanitizeFields fs) = true
  | [] => rfl
  | (k, v) :: rest => by
    by_cases h1 : (k == "__proto__" || k == "constructor" || k == "prototype") = true
    · simpa [sanitizeFields, h1] using reservedFree_sanitizeFields rest
    · by_cases h2 : isBlank k = true
      · simpa [sanitizeFields, h1, h2] using reservedFree_sanitizeFields rest
      · have hk : validateKey k = true := by
          simp [validateKey]
          simpa using h1
        simp [sanitizeFields, h1, h2, reservedFreeFields, hk,
          reservedFree_sanitizeState v, reservedFree_sanitizeFields rest]

theorem reservedFree_sanitizeElems :
    ∀ es : List JSVal, reservedFreeElems (sanitizeElems es) = true
  | [] => rfl
  | v :: rest => by
    simp [sanitizeElems, reservedFreeElems, reservedFree_sanitizeState v,
      reservedFree_sanitizeElems rest]

end

/-- C1: for every current tree, `set("__proto__.x", 1)` is claimed to
be rejected as a no-op leaving the value tree unchanged.  The code
disagrees: `validatePath` accepts the path (it only checks blankness
and segment count), and the navigation reduce "blocks" the dangerous
segment by staying at the same object (`return obj`), after which the
final segment is assigned there — so on the empty tree the root gains
the key "x".  The global prototype is untouched (the dangerous key is
never dereferenced), but the tree does change. -/
theorem reserved_path_set_writes_at_root :
    rsSetByPath (.obj []) "__proto__.x" (.num 1) =
      (.obj [("x", .num 1)], some "__proto__.x") ∧
    JSVal.obj [("x", .num 1)] ≠ JSVal.obj [] := by
  constructor
  · rfl
  · simp

/-- C3 counterexample: the sanitizer is claimed to truncate any part
of the input nested deeper than the recursion ceiling 50; but on a
value of nesting depth 61 the code returns a full copy — nothing is
truncated (`sanitizeState` never consults `maxDepth`). -/
theorem sanitize_no_ceiling_cex :
    sanitizeState (deepNest 61) = deepNest 61 ∧ 50 < jsDepth (deepNest 61) := by
  constructor
  · exact sanitizeState_deepNest 61
  · rw [jsDepth_deepNest]
    decide

/-- C3 amended: the sanitizer recursively copies its input, dropping
reserved keys at every nesting level (first conjunct), but enforces no
recursion ceiling: input of any nesting depth is copied in full
(second conjunct; `maxDepth = 50` is only used by `validatePath`). -/
theorem sanitize_drops_reserved_no_ceiling :
    (∀ v : JSVal, reservedFree (sanitizeState v) = true) ∧
    (∀ n : Nat, sanitizeState (deepNest n) = deepNest n) :=
  ⟨reservedFree_sanitizeState, sanitizeState_deepNest⟩

theorem assocFind_assocSet (fs : List (String × JSVal)) (k : String) (v : JSVal) :
    assocFind (assocSet fs k v) k = some v := by
  induction fs with
  | nil => simp [assocSet, assocFind]
  | cons kv rest ih =>
    obtain ⟨k0, w⟩ := kv
    by_cases h : k0 = k
    · simp [assocSet, assocFind, h]
    · simp [assocSet, assocFind, h, ih]

theorem getD_replicate_append (n : Nat) (v : JSVal) :
    (List.replicate n JSVal.undefined ++ [v]).getD n .undefined = v := by
  induction n with
  | zero => simp
  | succ m ih =>
    rw [List.replicate_succ, List.cons_append, List.getD_cons_succ]
    exact ih

theorem getD_append_replicate (l : List JSVal) (n : Nat) (v : JSVal) :
    (l ++ List.replicate n JSVal.undefined ++ [v]).getD (l.length + n) .undefined = v := by
  induction l with
  | nil =>
    rw [List.nil_append, List.length_nil, Nat.zero_add]
    exact getD_replicate_append n v
  | cons x xs ih =>
    have h1 : (x :: xs).length + n = (xs.length + n) + 1 := by
      simp [List.length_cons]
      omega
    rw [h1, List.cons_append, List.cons_append]
    simpa using ih

theorem padSet_getD (es : List JSVal) (i : Nat) (v : JSVal) :
    (padSet es i v).getD i .undefined = v := by
  by_cases h : i < es.length
  · simp [padSet, h, List.getD_eq_getElem?_getD, List.getElem?_set_eq_of_lt]
  · have hle : es.length ≤ i := Nat.le_of_not_lt h
    have heq : es.length + (i - es.length) = i := Nat.add_sub_cancel' hle
    have hv := getD_append_replicate es (i - es.length) v
    rw [heq] at hv
    rw [padSet, if_neg h]
    exact hv

theorem propGet_propSet (t : JSVal) (k : String) (v : JSVal)
    (h : t.isObjLike = true) : (t.propSet k v).propGet k = v := by
  cases t with
  | obj fs => simp [JSVal.propSet, JSVal.propGet, assocFind_assocSet]
  | arr es ps =>
    cases hidx : canonIdx k with
    | some i =>
      simp only [JSVal.propSet, JSVal.propGet, hidx]
      exact padSet_getD es i v
    | none => simp [JSVal.propSet, JSVal.propGet, hidx, assocFind_assocSet]
  | undefined => simp [JSVal.isObjLike] at h
  | null => simp [JSVal.isObjLike] at h
  | bool b => simp [JSVal.isObjLike] at h
  | num n => simp [JSVal.isObjLike] at h
  | str s => simp [JSVal.isObjLike] at h

theorem propSet_isObjLike (t : JSVal) (k : String) (v : JSVal)
    (h : t.isObjLike = true) : (t.propSet k v).isObjLike = true := by
  cases t <;> simp_all [JSVal.isObjLike, JSVal.propSet]
  cases canonIdx k <;> simp [JSVal.isObjLike]

theorem isObjLike_truthy (t : JSVal) (h : t.isObjLike = true) : t.truthy = true := by
  cases t <;> simp_all [JSVal.isObjLike, JSVal.truthy]

theorem isObjLike_not_isUndef (t : JSVal) (h : t.isObjLike = true) : t.isUndefined = false := by
  cases t <;> simp_all [JSVal.isObjLike, JSVal.isUndefined]

theorem ite_objLike_isObjLike (x : JSVal) :
    (if x.isObjLike then x else JSVal.obj []).isObjLike = true := by
  split
  · next hc => exact hc
  · rfl

theorem navAssign_fst_isObjLike (ks : List String) (t : JSVal) (lk : String) (w : JSVal)
    (h : t.isObjLike = true) : ((navAssign t ks lk w).1).isObjLike = true := by
  induction ks generalizing t with
  | nil => simpa [navAssign] using propSet_isObjLike t lk w h
  | cons k rest ih =>
    cases hk : validateKey k with
    | false => simpa [navAssign, hk] using ih t h
    | true =>
      simp only [navAssign, hk, Bool.not_true, Bool.false_eq_true, if_false]
      exact propSet_isObjLike _ _ _ h

/-- The round-trip core: after navigate/assign through valid keys from
an object-like tree, the segment walk of `get` over the same keys
reads back exactly the assigned value. -/
theorem getSegs_navAssign (init : List String) (t : JSVal) (lk : String) (w : JSVal)
    (hobj : t.isObjLike = true)
    (hks : ∀ k ∈ init, validateKey k = true) (hlk : validateKey lk = true) :
    getSegs (navAssign t init lk w).1 (init ++ [lk]) = w := by
  induction init generalizing t with
  | nil =>
    have hset := propGet_propSet t lk w hobj
    have htr := isObjLike_truthy _ (propSet_isObjLike t lk w hobj)
    cases hw : w.isUndefined with
    | true =>
      have : w = .undefined := by cases w <;> simp_all [JSVal.isUndefined]
      subst this
      simp [navAssign, getSegs, hlk, hset, htr]
    | false =>
      simp [navAssign, getSegs, hlk, hset, htr, hw]
  | cons k rest ih =>
    have hk : validateKey k = true := hks k (by simp)
    have hchild := ite_objLike_isObjLike (t.propGet k)
    have hrec := ih (if (t.propGet k).isObjLike then t.propGet k else JSVal.obj []) hchild
    have hinner := navAssign_fst_isObjLike rest
      (if (t.propGet k).isObjLike then t.propGet k else JSVal.obj []) lk w hchild
    have hksr : ∀ q ∈ rest, validateKey q = true := fun q hq => hks q (by simp [hq])
    simp only [navAssign, hk, Bool.not_true, Bool.false_eq_true, if_false]
    simp only [List.cons_append, getSegs, hk, Bool.not_true, Bool.false_eq_true, if_false]
    rw [propGet_propSet _ _ _ hobj]
    simp [isObjLike_truthy _ (propSet_isObjLike t k _ hobj),
      isObjLike_not_isUndef _ hinner, hrec hksr]

theorem splitDotAux_ne_nil : ∀ (cs acc : List Char), splitDotAux cs acc ≠ []
  | [], _ => by simp [splitDotAux]
  | c :: cs, acc => by
    by_cases h : c = '.'
    · simp [splitDotAux, h]
    · simpa [splitDotAux, h] using splitDotAux_ne_nil cs (c :: acc)

theorem splitDot_ne_nil (s : String) : splitDot s ≠ [] :=
  splitDotAux_ne_nil s.toList []

theorem getLastD_eq_getLast (l : List String) (h : l ≠ []) :
    l.getLastD "" = l.getLast h := by
  rw [List.getLastD_eq_getLast?, List.getLast?_eq_getLast l h]
  rfl

theorem validPath_ne_empty (p : String) (hp : validatePath p = true) : p ≠ "" := by
  intro h
  subst h
  exact absurd hp (by decide)

theorem dropLast_append_getLastD (l : List String) (h : l ≠ []) :
    l.dropLast ++ [l.getLastD ""] = l := by
  rw [getLastD_eq_getLast l h]
  exact List.dropLast_append_getLast h

/-- C5: for every valid path (non-blank, at most 50 dot-separated
segments, no reserved segment) and every value, `set(p, v)` followed
by `get(p)` returns exactly the sanitized form of the value, from any
object-like current tree. -/
theorem set_get_round_trip (t : JSVal) (p : String) (v : JSVal)
    (hobj : t.isObjLike = true)
    (hp : validatePath p = true)
    (hk : ∀ k ∈ splitDot p, validateKey k = true) :
    rsGet (rsSetByPath t p v).1 (some p) = sanitizeState v := by
  have hne : splitDot p ≠ [] := splitDot_ne_nil p
  have hlast_mem : (splitDot p).getLastD "" ∈ splitDot p := by
    rw [getLastD_eq_getLast _ hne]
    exact List.getLast_mem hne
  have hlk : validateKey ((splitDot p).getLastD "") = true := hk _ hlast_mem
  have hpe : p ≠ "" := validPath_ne_empty p hp
  unfold rsSetByPath rsGet
  simp only [hp, Bool.not_true, Bool.false_eq_true, if_false, hlk, if_neg hpe]
  have H := getSegs_navAssign (splitDot p).dropLast t ((splitDot p).getLastD "")
    (sanitizeState v) hobj
    (fun k hmem => hk k ((List.dropLast_sublist (splitDot p)).subset hmem)) hlk
  rw [dropLast_append_getLastD (splitDot p) hne] at H
  exact H

/-- C5 witness at a concrete input. -/
theorem set_get_round_trip_witness :
    validatePath "a.b" = true ∧
    rsGet (rsSetByPath (.obj []) "a.b" (.num 5)).1 (some "a.b") = sanitizeState (.num 5) :=
  ⟨by decide, set_get_round_trip (.obj []) "a.b" (.num 5) rfl (by decide) (by decide)⟩

theorem getSegs_undefined : ∀ ks : List String, getSegs .undefined ks = .undefined
  | [] => rfl
  | k :: ks => by
    cases hk : validateKey k with
    | false => simpa [getSegs, hk] using getSegs_undefined ks
    | true => simpa [getSegs, hk, JSVal.truthy] using getSegs_undefined ks

/-- The reduce-style walk of `get` agrees with the specification-style
walk that short-circuits to `undefined`. -/
theorem getSegs_eq_walkSpec : ∀ (ks : List String) (t : JSVal),
    getSegs t ks = walkSpec t ks
  | [], _ => rfl
  | k :: ks, t => by
    cases hk : validateKey k with
    | false => simp [getSegs, walkSpec, hk, getSegs_undefined]
    | true =>
      cases ho : t.isObjLike with
      | false =>
        have hpg : t.propGet k = .undefined := by
          cases t <;> simp_all [JSVal.isObjLike, JSVal.propGet]
        simp [getSegs, walkSpec, hk, ho, hpg, JSVal.isUndefined, getSegs_undefined]
      | true =>
        cases hx : (t.propGet k).isUndefined with
        | true =>
          have hu : t.propGet k = .undefined := by
            cases hpg : t.propGet k <;> simp_all [JSVal.isUndefined]
          simp [getSegs, walkSpec, hk, ho, hx, hu, getSegs_undefined, JSVal.isUndefined]
        | false =>
          simp [getSegs, walkSpec, hk, ho, hx, isObjLike_truthy t ho,
            getSegs_eq_walkSpec ks (t.propGet k)]

/-- A tree of `n` nested singleton objects under "k", ending in `7`. -/
def deepK : Nat → JSVal
  | 0 => .num 7
  | n + 1 => .obj [("k", deepK n)]

/-- The dotted path of `n + 1` segments "k". -/
def pathK : Nat → String
  | 0 => "k"
  | n + 1 => "k." ++ pathK n

/-- C7 counterexample: on a 51-level tree (buildable, since the
sanitizer enforces no depth ceiling) and the matching 51-segment path,
the claimed segment walk reaches the stored value `7`, yet `get`
returns `undefined` without walking, because `validatePath` rejects
paths of more than 50 segments before the walk starts. -/
theorem get_deep_path_cex :
    rsGet (deepK 51) (some (pathK 50)) = .undefined ∧
    walkSpec (deepK 51) (splitDot (pathK 50)) = .num 7 ∧
    JSVal.num 7 ≠ JSVal.undefined := by
  refine ⟨rfl, rfl, ?_⟩
  simp

/-- C7 amended: `get` returns the whole tree when the path is omitted
or is the (falsy) empty string; when `validatePath` fails (blank path
or more than 50 segments) it returns `undefined` without walking;
otherwise it walks segment-by-segment, returning `undefined` the
moment a segment fails `validateKey`, the intermediate value is not a
truthy object, or the segment is missing; the model is total, so `get`
never throws. -/
theorem get_behavior_amended :
    (∀ t : JSVal, rsGet t none = t) ∧
    (∀ t : JSVal, rsGet t (some "") = t) ∧
    (∀ (t : JSVal) (p : String), p ≠ "" → validatePath p = false →
      rsGet t (some p) = .undefined) ∧
    (∀ (t : JSVal) (p : String), validatePath p = true →
      rsGet t (some p) = walkSpec t (splitDot p)) := by
  refine ⟨fun t => rfl, fun t => rfl, ?_, ?_⟩
  · intro t p hne hv
    simp [rsGet, hne, hv]
  · intro t p hv
    have hne : p ≠ "" := validPath_ne_empty p hv
    simp [rsGet, hne, hv, getSegs_eq_walkSpec]

/-- C7 amended, witness at concrete inputs. -/
theorem get_behavior_amended_witness :
    rsGet (.obj [("a", .num 1)]) (some "a") =
      walkSpec (.obj [("a", .num 1)]) (splitDot "a") ∧
    rsGet (.obj [("a", .num 1)]) (some (pathK 50)) = .undefined :=
  ⟨get_behavior_amended.2.2.2 (.obj [("a", .num 1)]) "a" (by decide),
   get_behavior_amended.2.2.1 (.obj [("a", .num 1)]) (pathK 50) (by decide) (by decide)⟩

/-- The engine of the C4 counterexample: one subscriber on "a" whose
callback performs `set("b", 1)` and then reads `get("b")`. -/
def c4Engine : Engine :=
  mkEngine (.obj []) [("a", [⟨1, [.setPath "b" (.num 1), .getObs "b"]⟩])]

/-- C4 counterexample: a `set("b", 1)` issued from inside a subscriber
callback during dispatch mutates the tree synchronously — the very
next `get("b")` inside the same callback already observes `1`, not the
pre-set value `undefined` — while the deferred pass for "b" is still
queued.  Only the notification is deferred, not the mutation. -/
theorem inner_set_observed_synchronously :
    (rsUserSetPath c4Engine "a" (.num 1)).2 =
      [.invoke false 1 (.num 1) "a", .obs 1 "b" (.num 1)] ∧
    (rsUserSetPath c4Engine "a" (.num 1)).1.tree =
      .obj [("a", .num 1), ("b", .num 1)] ∧
    (rsUserSetPath c4Engine "a" (.num 1)).1.tasks = [⟨0, ["b"]⟩] ∧
    JSVal.num 1 ≠ JSVal.undefined := by
  refine ⟨rfl, rfl, rfl, ?_⟩
  simp

theorem setTree_tree (e : Engine) (t : JSVal) (hwf : e.curRoot < e.heap.length) :
    (setTree e t).tree = t := by
  simp [setTree, Engine.tree, heapAt, List.getD_eq_getElem?_getD,
    List.getElem?_set_eq_of_lt t hwf]

theorem tree_with_pending (e : Engine) (l : List String) :
    ({ e with pending := l } : Engine).tree = e.tree := rfl

theorem mem_addPending (l : List String) (p : String) : p ∈ addPending l p := by
  by_cases h : p ∈ l
  · simp [addPending, h]
  · simp [addPending, h]

/-- C4 amended: a `set(p, v)` issued from inside a subscriber callback
applies its mutation to the tree synchronously — immediately after the
inner `set` returns, `get(p)` yields the newly set, sanitized value —
while it produces no callback invocation of its own and schedules no
task; the changed path only joins `pendingUpdates`, to be notified in
a deferred pass after the current dispatch completes. -/
theorem inner_set_mutates_now_notifies_later (e : Engine) (sid : Nat)
    (p : String) (v : JSVal)
    (hobj : e.tree.isObjLike = true)
    (hwf : e.curRoot < e.heap.length)
    (hp : validatePath p = true)
    (hk : ∀ k ∈ splitDot p, validateKey k = true)
    (hch : (rsSetByPath e.tree p v).2 = some p) :
    rsGet (runAction e sid (.setPath p v)).1.tree (some p) = sanitizeState v ∧
    (runAction e sid (.setPath p v)).2 = [] ∧
    (runAction e sid (.setPath p v)).1.tasks = e.tasks ∧
    p ∈ (runAction e sid (.setPath p v)).1.pending := by
  have hrt := set_get_round_trip e.tree p v hobj hp hk
  have hrw : runAction e sid (.setPath p v) =
      ({ setTree e (rsSetByPath e.tree p v).1 with
          pending := addPending (setTree e (rsSetByPath e.tree p v).1).pending p }, []) := by
    simp only [runAction, hch]
  rw [hrw]
  refine ⟨?_, rfl, rfl, mem_addPending _ p⟩
  rw [tree_with_pending, setTree_tree e _ hwf]
  exact hrt

/-- C4 amended, witness: a concrete in-dispatch engine. -/
def c4wEngine : Engine :=
  { mkEngine (.obj []) [] with isUpdating := true, updateCount := 1 }

theorem inner_set_mutates_now_notifies_later_witness :
    rsGet (runAction c4wEngine 1 (.setPath "b" (.num 2))).1.tree (some "b") =
      sanitizeState (.num 2) ∧
    "b" ∈ (runAction c4wEngine 1 (.setPath "b" (.num 2))).1.pending :=
  ⟨(inner_set_mutates_now_notifies_later c4wEngine 1 "b" (.num 2)
      rfl (by decide) (by decide) (by decide) rfl).1,
   (inner_set_mutates_now_notifies_later c4wEngine 1 "b" (.num 2)
      rfl (by decide) (by decide) (by decide) rfl).2.2.2⟩

/-!
C2: the storm breaker.  One subscriber on "p" writes a fresh object
back to "p" from its own callback.  Each deferred pass performs one
notification, re-pends "p", schedules the next pass — and then resets
`updateCount` to 0 (`setTimeout` closure, after the `forEach`), so the
`maxUpdatesPerCycle` check never fires and the feedback loop continues
without bound.
-/

def stormEngine : Engine :=
  mkEngine (.obj []) [("p", [⟨1, [.setPath "p" (.obj [])]⟩])]

/-- The engine right after the user-initiated `set("p", {})`: one
deferred pass queued, counter left at 1. -/
def stormE1 : Engine :=
  { heap := [.obj [("p", .obj [])]], curRoot := 0,
    registry := [("p", [⟨1, [.setPath "p" (.obj [])]⟩])],
    isUpdating := false, pending := [], updateCount := 1,
    tasks := [⟨0, ["p"]⟩] }

/-- The engine at the start of every later deferred pass: identical
but with the counter reset to 0. -/
def stormE2 : Engine :=
  { stormE1 with updateCount := 0 }

theorem storm_step0 :
    rsUserSetPath stormEngine "p" (.obj []) =
      (stormE1, [.invoke false 1 (.obj []) "p"]) := rfl

theorem storm_fix1 :
    runTask { stormE1 with tasks := [] } ⟨0, ["p"]⟩ =
      (stormE2, [.invoke false 1 (.obj []) "p"]) := rfl

theorem storm_fix2 :
    runTask { stormE2 with tasks := [] } ⟨0, ["p"]⟩ =
      (stormE2, [.invoke false 1 (.obj []) "p"]) := rfl

def invokeCount : List Event → Nat
  | [] => 0
  | .invoke _ _ _ _ :: rest => invokeCount rest + 1
  | _ :: rest => invokeCount rest

def hasStorm : List Event → Bool
  | [] => false
  | .stormAbort :: _ => true
  | _ :: rest => hasStorm rest

theorem invokeCount_cons_invoke (w : Bool) (i : Nat) (a : JSVal) (c : String)
    (rest : List Event) :
    invokeCount (.invoke w i a c :: rest) = invokeCount rest + 1 := rfl

theorem hasStorm_cons_invoke (w : Bool) (i : Nat) (a : JSVal) (c : String)
    (rest : List Event) :
    hasStorm (.invoke w i a c :: rest) = hasStorm rest := rfl

theorem invokeCount_append (a b : List Event) :
    invokeCount (a ++ b) = invokeCount a + invokeCount b := by
  induction a with
  | nil => simp [invokeCount]
  | cons x rest ih =>
    cases x with
    | invoke a b c d =>
      simp [invokeCount, ih]
      omega
    | obs a b c => simp [invokeCount, ih]
    | stormAbort => simp [invokeCount, ih]

theorem hasStorm_append (a b : List Event) :
    hasStorm (a ++ b) = (hasStorm a || hasStorm b) := by
  induction a with
  | nil => simp [hasStorm]
  | cons x rest ih => cases x <;> simp [hasStorm, ih]

theorem storm_drive2 : ∀ n : Nat,
    (drive n stormE2).1 = stormE2 ∧
    invokeCount (drive n stormE2).2 = n ∧
    hasStorm (drive n stormE2).2 = false
  | 0 => ⟨rfl, rfl, rfl⟩
  | n + 1 => by
    have ih := storm_drive2 n
    have hstep : drive (n + 1) stormE2 =
        ((drive n stormE2).1,
          .invoke false 1 (.obj []) "p" :: (drive n stormE2).2) := by
      show (match stormE2.tasks with
        | [] => (stormE2, [])
        | t :: ts =>
          let r₁ := runTask { stormE2 with tasks := ts } t
          let r₂ := drive n r₁.1
          (r₂.1, r₁.2 ++ r₂.2)) = _
      rw [show stormE2.tasks = [⟨0, ["p"]⟩] from rfl]
      simp only [storm_fix2]
      rfl
    rw [hstep]
    exact ⟨ih.1, by simp [invokeCount, ih.2.1], by simp [hasStorm, ih.2.2]⟩

/-- C2 (code-bug evidence): with the self-feeding subscriber, one
user-initiated `set` produces 151 notification invocations across the
first 150 deferred passes — already above `maxUpdatesPerCycle = 100` —
with no storm-abort ever fired and the task queue still non-empty (the
burst never terminates): `updateCount` is reset to 0 at the end of
every deferred pass, so the circuit breaker can never trip and the
claimed bound does not hold. -/
theorem storm_breaker_never_fires :
    invokeCount ((rsUserSetPath stormEngine "p" (.obj [])).2 ++
      (drive 150 (rsUserSetPath stormEngine "p" (.obj [])).1).2) = 151 ∧
    100 < invokeCount ((rsUserSetPath stormEngine "p" (.obj [])).2 ++
      (drive 150 (rsUserSetPath stormEngine "p" (.obj [])).1).2) ∧
    hasStorm ((rsUserSetPath stormEngine "p" (.obj [])).2 ++
      (drive 150 (rsUserSetPath stormEngine "p" (.obj [])).1).2) = false ∧
    (drive 150 (rsUserSetPath stormEngine "p" (.obj [])).1).1.tasks ≠ [] := by
  have h0 : (rsUserSetPath stormEngine "p" (.obj [])).1 = stormE1 := by
    rw [storm_step0]
  have h0t : (rsUserSetPath stormEngine "p" (.obj [])).2 =
      [.invoke false 1 (.obj []) "p"] := by
    rw [storm_step0]
  have hstep : drive 150 stormE1 =
      ((drive 149 stormE2).1,
        .invoke false 1 (.obj []) "p" :: (drive 149 stormE2).2) := by
    show (match stormE1.tasks with
      | [] => (stormE1, [])
      | t :: ts =>
        let r₁ := runTask { stormE1 with tasks := ts } t
        let r₂ := drive 149 r₁.1
        (r₂.1, r₁.2 ++ r₂.2)) = _
    rw [show stormE1.tasks = [⟨0, ["p"]⟩] from rfl]
    simp only [storm_fix1]
    rfl
  have hd := storm_drive2 149
  rw [h0, h0t, hstep]
  dsimp only
  rw [invokeCount_append, hasStorm_append, invokeCount_cons_invoke,
    invokeCount_cons_invoke, hasStorm_cons_invoke, hasStorm_cons_invoke,
    hd.2.1, hd.2.2, hd.1]
  refine ⟨by norm_num [invokeCount], by norm_num [invokeCount], by simp [hasStorm], ?_⟩
  simp [stormE2, stormE1]

/-!
C6: within one notify call, path-scoped subscribers run before
wildcard subscribers, each scope in registration order.  The
invocation trace of a `notifySubs` call splits as the path-pass trace
followed by the wildcard-pass trace, and within each pass the invoked
ids form a sublist (order-preserving selection) of the registration
order of that scope's subscriber set; callbacks may only shrink the
registry (the action language has unsubscribe but no subscribe), so
the wildcard snapshot taken after the path pass is itself a sublist of
the wildcard registrations at entry.
-/

def invokeIds : List Event → List Nat
  | [] => []
  | .invoke _ i _ _ :: rest => i :: invokeIds rest
  | .obs _ _ _ :: rest => invokeIds rest
  | .stormAbort :: rest => invokeIds rest

theorem invokeIds_cons_invoke (w : Bool) (i : Nat) (a : JSVal) (c : String)
    (rest : List Event) : invokeIds (.invoke w i a c :: rest) = i :: invokeIds rest := rfl

theorem invokeIds_append (a b : List Event) :
    invokeIds (a ++ b) = invokeIds a ++ invokeIds b := by
  induction a with
  | nil => simp [invokeIds]
  | cons x rest ih => cases x <;> simp [invokeIds, ih]

theorem runAction_no_invoke (e : Engine) (sid : Nat) (a : Act) :
    invokeIds (runAction e sid a).2 = [] := by
  cases a with
  | setPath p v =>
    cases h : (rsSetByPath e.tree p v).2 <;> simp [runAction, h, invokeIds]
  | setMerge fields => simp [runAction, invokeIds]
  | getObs p => simp [runAction, invokeIds]
  | unsub path i => simp [runAction, invokeIds]
  | noop => simp [runAction, invokeIds]

theorem runActions_no_invoke (e : Engine) (sid : Nat) (acts : List Act) :
    invokeIds (runActions e sid acts).2 = [] := by
  induction acts generalizing e with
  | nil => simp [runActions, invokeIds]
  | cons a as ih =>
    simp [runActions, invokeIds_append, runAction_no_invoke, ih]

theorem runPass_invokeIds (passPath : String) (mk : Engine → JSVal)
    (cp : String) (snap : List Subscriber) (e : Engine) :
    List.Sublist (invokeIds (runPass passPath mk cp snap e).2)
      (snap.map Subscriber.id) := by
  induction snap generalizing e with
  | nil => simp [runPass, invokeIds]
  | cons s rest ih =>
    simp only [runPass]
    split
    · rw [invokeIds_cons_invoke, invokeIds_append, runActions_no_invoke,
        List.nil_append, List.map_cons]
      exact List.Sublist.cons₂ _ (ih _)
    · exact List.Sublist.cons _ (ih e)

/-- Registry evolution during dispatch: keys and per-path subscriber
sets only shrink (order preserved). -/
def regOk (r' r : Registry) : Prop :=
  List.Sublist (r'.map Prod.fst) (r.map Prod.fst) ∧
  ∀ q, List.Sublist (subsAt r' q) (subsAt r q)

theorem regOk_refl (r : Registry) : regOk r r :=
  ⟨List.Sublist.refl _, fun _ => List.Sublist.refl _⟩

theorem regOk_trans {a b c : Registry} (h1 : regOk a b) (h2 : regOk b c) : regOk a c :=
  ⟨h1.1.trans h2.1, fun q => (h1.2 q).trans (h2.2 q)⟩

theorem subsAt_cons (p0 : String) (l : List Subscriber) (rest : Registry)
    (q : String) : subsAt ((p0, l) :: rest) q = if p0 = q then l else subsAt rest q := rfl

theorem subsAt_eq_nil_of_not_mem (reg : Registry) (q : String)
    (h : q ∉ reg.map Prod.fst) : subsAt reg q = [] := by
  induction reg with
  | nil => rfl
  | cons ql rest ih =>
    obtain ⟨p0, l⟩ := ql
    simp only [List.map_cons, List.mem_cons] at h
    push_neg at h
    rw [subsAt_cons, if_neg (fun hq : p0 = q => h.1 hq.symm)]
    exact ih h.2

theorem unsubReg_keys (reg : Registry) (path : String) (i : Nat) :
    List.Sublist ((unsubReg reg path i).map Prod.fst) (reg.map Prod.fst) := by
  induction reg with
  | nil => simp [unsubReg]
  | cons ql rest ih =>
    obtain ⟨p0, l⟩ := ql
    by_cases h : p0 = path
    · simp only [unsubReg, if_pos h]
      split
      · exact List.Sublist.cons _ (List.Sublist.refl _)
      · exact List.Sublist.cons₂ _ (List.Sublist.refl _)
    · simp only [unsubReg, if_neg h, List.map_cons]
      exact List.Sublist.cons₂ _ ih

theorem unsubReg_subsAt (path : String) (i : Nat) :
    ∀ (reg : Registry), (reg.map Prod.fst).Nodup → ∀ q : String,
      List.Sublist (subsAt (unsubReg reg path i) q) (subsAt reg q)
  | [], _, _ => List.Sublist.refl _
  | (p0, l) :: rest, hnd, q => by
    have hnd' : p0 ∉ rest.map Prod.fst ∧ (rest.map Prod.fst).Nodup := by
      simpa [List.nodup_cons] using hnd
    simp only [unsubReg]
    split
    · next hpp =>
      split
      · next hemp =>
        rw [subsAt_cons]
        by_cases hq : p0 = q
        · subst hq
          rw [if_pos rfl, subsAt_eq_nil_of_not_mem rest p0 hnd'.1]
          exact List.nil_sublist _
        · rw [if_neg hq]
      · next hemp =>
        rw [subsAt_cons, subsAt_cons]
        by_cases hq : p0 = q
        · rw [if_pos hq, if_pos hq]
          exact List.filter_sublist l
        · rw [if_neg hq, if_neg hq]
    · next hpp =>
      rw [subsAt_cons, subsAt_cons]
      by_cases hq : p0 = q
      · rw [if_pos hq, if_pos hq]
      · rw [if_neg hq, if_neg hq]
        exact unsubReg_subsAt path i rest hnd'.2 q

theorem unsubReg_regOk (reg : Registry) (path : String) (i : Nat)
    (hnd : (reg.map Prod.fst).Nodup) : regOk (unsubReg reg path i) reg :=
  ⟨unsubReg_keys reg path i, unsubReg_subsAt path i reg hnd⟩

theorem regOk_nodup {r' r : Registry} (h : regOk r' r)
    (hnd : (r.map Prod.fst).Nodup) : (r'.map Prod.fst).Nodup :=
  h.1.nodup hnd

theorem runAction_registry (e : Engine) (sid : Nat) (a : Act) :
    (runAction e sid a).1.registry = e.registry ∨
    ∃ path i, (runAction e sid a).1.registry = unsubReg e.registry path i := by
  cases a with
  | setPath p v =>
    cases h : (rsSetByPath e.tree p v).2 <;> simp [runAction, h, setTree]
  | setMerge fields => simp [runAction]
  | getObs p => simp [runAction]
  | unsub path i =>
    right
    exact ⟨path, i, rfl⟩
  | noop => simp [runAction]

theorem runAction_regOk (e : Engine) (sid : Nat) (a : Act)
    (hnd : (e.registry.map Prod.fst).Nodup) :
    regOk (runAction e sid a).1.registry e.registry := by
  rcases runAction_registry e sid a with h | ⟨path, i, h⟩
  · rw [h]
    exact regOk_refl _
  · rw [h]
    exact unsubReg_regOk e.registry path i hnd

theorem runActions_regOk (e : Engine) (sid : Nat) (acts : List Act)
    (hnd : (e.registry.map Prod.fst).Nodup) :
    regOk (runActions e sid acts).1.registry e.registry := by
  induction acts generalizing e with
  | nil => exact regOk_refl _
  | cons a as ih =>
    have h1 := runAction_regOk e sid a hnd
    have h2 := ih (runAction e sid a).1 (regOk_nodup h1 hnd)
    exact regOk_trans h2 h1

theorem runPass_regOk (passPath : String) (mk : Engine → JSVal) (cp : String)
    (snap : List Subscriber) (e : Engine)
    (hnd : (e.registry.map Prod.fst).Nodup) :
    regOk (runPass passPath mk cp snap e).1.registry e.registry := by
  induction snap generalizing e with
  | nil => exact regOk_refl _
  | cons s rest ih =>
    simp only [runPass]
    split
    · have h1 := runActions_regOk e s.id s.cb hnd
      have h2 := ih (runActions e s.id s.cb).1 (regOk_nodup h1 hnd)
      exact regOk_trans h2 h1
    · exact ih e hnd

theorem pathPass_invokeIds (e : Engine) (cp : String) :
    List.Sublist (invokeIds (pathPassRun e cp).2)
      ((subsAt e.registry cp).map Subscriber.id) := by
  rw [pathPassRun]
  split
  · exact runPass_invokeIds _ _ _ _ _
  · simp [invokeIds]

theorem globalPass_invokeIds (e : Engine) (r : Nat) (cp : String) :
    List.Sublist (invokeIds (globalPassRun e r cp).2)
      ((subsAt e.registry "*").map Subscriber.id) := by
  rw [globalPassRun]
  split
  · exact runPass_invokeIds _ _ _ _ _
  · simp [invokeIds]

theorem pathPass_regOk (e : Engine) (cp : String)
    (hnd : (e.registry.map Prod.fst).Nodup) :
    regOk (pathPassRun e cp).1.registry e.registry := by
  rw [pathPassRun]
  split
  · exact runPass_regOk _ _ _ _ _ hnd
  · exact regOk_refl _

/-- C6: within one `notify` call for a changed path `p ≠ "*"` (on a
registry with unique path keys, as the subscribe entry point
maintains), the event trace splits into the path pass followed by the
wildcard pass: every path-scoped invocation precedes every wildcard
invocation, and within each scope the invoked ids are an
order-preserving selection (sublist) of that scope's registration
order — subscribers unsubscribed mid-pass are skipped, none are
reordered. -/
theorem dispatchBody_trace (e : Engine) (r : Nat) (p : String) :
    (dispatchBody e r p).2 =
      (pathPassRun e p).2 ++ (globalPassRun (pathPassRun e p).1 r p).2 := by
  unfold dispatchBody
  dsimp only
  split
  · rfl
  · rfl

theorem path_subscribers_before_wildcards (e : Engine) (r : Nat) (p : String)
    (_hp : p ≠ "*") (hnd : (e.registry.map Prod.fst).Nodup) :
    ∃ t1 t2,
      (notifySubs e r p).2 = t1 ++ t2 ∧
      List.Sublist (invokeIds t1) ((subsAt e.registry p).map Subscriber.id) ∧
      List.Sublist (invokeIds t2) ((subsAt e.registry "*").map Subscriber.id) := by
  rw [notifySubs]
  split
  · exact ⟨[], [], rfl, List.nil_sublist _, List.nil_sublist _⟩
  · split
    · refine ⟨[.stormAbort], [], rfl, ?_, List.nil_sublist _⟩
      simp [invokeIds]
    · refine ⟨_, _, dispatchBody_trace _ r p, ?_, ?_⟩
      · exact pathPass_invokeIds _ p
      · exact (globalPass_invokeIds _ r p).trans
          (List.Sublist.map _
            ((pathPass_regOk
              { e with updateCount := e.updateCount + 1, isUpdating := true }
              p hnd).2 "*"))

/-- C6 witness: a concrete engine with one subscriber on "a.b" and one
wildcard subscriber. -/
theorem path_subscribers_before_wildcards_witness :
    ∃ t1 t2,
      (notifySubs (mkEngine (.obj []) [("a.b", [⟨1, []⟩]), ("*", [⟨2, []⟩])]) 0 "a.b").2 =
        t1 ++ t2 ∧
      List.Sublist (invokeIds t1)
        ((subsAt (mkEngine (.obj []) [("a.b", [⟨1, []⟩]), ("*", [⟨2, []⟩])]).registry
          "a.b").map Subscriber.id) ∧
      List.Sublist (invokeIds t2)
        ((subsAt (mkEngine (.obj []) [("a.b", [⟨1, []⟩]), ("*", [⟨2, []⟩])]).registry
          "*").map Subscriber.id) :=
  path_subscribers_before_wildcards _ 0 "a.b" (by decide) (by decide)

/-!
C8: a subscriber whose unsubscribe handle runs during dispatch, before
its callback was reached in the current pass, is removed from the
registry immediately and is never invoked afterwards for the same
mutation — in the remainder of the pass, in the wildcard pass, and in
every deferred follow-up pass.  The key invariant: the callback action
language can remove subscribers but never add them, so once an id has
zero occurrences in the registry it stays at zero and is never invoked
(the pass re-checks live registration before each invocation).
-/

def countIdIn (l : List Subscriber) (i : Nat) : Nat :=
  (l.filter (fun s => s.id == i)).length

def occId : Registry → Nat → Nat
  | [], _ => 0
  | (_, l) :: rest, i => countIdIn l i + occId rest i

theorem countIdIn_le_occId (reg : Registry) (q : String) (i : Nat) :
    countIdIn (subsAt reg q) i ≤ occId reg i := by
  induction reg with
  | nil => simp [subsAt, countIdIn]
  | cons ql rest ih =>
    obtain ⟨p0, l⟩ := ql
    rw [subsAt_cons]
    by_cases hq : p0 = q
    · rw [if_pos hq, occId]
      omega
    · rw [if_neg hq, occId]
      omega

theorem countIdIn_pos_of_mem {l : List Subscriber} {s : Subscriber}
    (hs : s ∈ l) : 1 ≤ countIdIn l s.id := by
  induction l with
  | nil => cases hs
  | cons x rest ih =>
    rcases List.mem_cons.mp hs with h | h
    · subst h
      simp [countIdIn]
    · have hr := ih h
      by_cases hx : x.id == s.id
      · simp only [countIdIn, List.filter_cons, hx, if_true]
        simp only [countIdIn] at hr
        simp

      · simp only [countIdIn, List.filter_cons, hx]
        simpa [countIdIn] using hr

theorem countIdIn_filter_ne (l : List Subscriber) (i : Nat) :
    countIdIn (l.filter (fun s => s.id ≠ i)) i = 0 := by
  induction l with
  | nil => rfl
  | cons x rest ih =>
    by_cases hx : x.id = i
    · simp [List.filter_cons, hx, ih, countIdIn]
    · simp only [List.filter_cons]
      rw [if_pos (by simpa using hx)]
      simp only [countIdIn, List.filter_cons]
      rw [if_neg (by simpa using hx)]
      exact ih

theorem occId_unsubReg_exact (path : String) (i : Nat) : ∀ (reg : Registry),
    occId (unsubReg reg path i) i = occId reg i - countIdIn (subsAt reg path) i
  | [] => by simp [unsubReg, occId, subsAt, countIdIn]
  | (p0, l) :: rest => by
    by_cases h : p0 = path
    · simp only [unsubReg, if_pos h]
      rw [subsAt_cons, if_pos h, occId]
      split
      · next hemp =>
        omega
      · next hemp =>
        rw [occId, countIdIn_filter_ne]
        omega
    · simp only [unsubReg, if_neg h]
      rw [occId, occId, subsAt_cons, if_neg h,
        occId_unsubReg_exact path i rest]
      have hle := countIdIn_le_occId rest path i
      omega

theorem countIdIn_sublist {l₁ l₂ : List Subscriber} (h : List.Sublist l₁ l₂)
    (i : Nat) : countIdIn l₁ i ≤ countIdIn l₂ i :=
  List.Sublist.length_le (List.Sublist.filter _ h)

theorem occId_unsubReg_le (path : String) (j i : Nat) : ∀ (reg : Registry),
    occId (unsubReg reg path j) i ≤ occId reg i
  | [] => Nat.le_refl _
  | (p0, l) :: rest => by
    by_cases h : p0 = path
    · simp only [unsubReg, if_pos h]
      split
      · rw [occId]
        omega
      · rw [occId, occId]
        have := countIdIn_sublist (List.filter_sublist l
          (p := fun s => decide (s.id ≠ j))) i
        omega
    · simp only [unsubReg, if_neg h]
      rw [occId, occId]
      have := occId_unsubReg_le path j i rest
      omega

theorem runAction_occ_le (e : Engine) (sid : Nat) (a : Act) (i : Nat) :
    occId (runAction e sid a).1.registry i ≤ occId e.registry i := by
  rcases runAction_registry e sid a with h | ⟨path, j, h⟩
  · rw [h]
  · rw [h]
    exact occId_unsubReg_le path j i e.registry

theorem runActions_occ_le (e : Engine) (sid : Nat) (acts : List Act) (i : Nat) :
    occId (runActions e sid acts).1.registry i ≤ occId e.registry i := by
  induction acts generalizing e with
  | nil => exact Nat.le_refl _
  | cons a as ih =>
    exact Nat.le_trans (ih (runAction e sid a).1) (runAction_occ_le e sid a i)

theorem any_id_occ_pos (reg : Registry) (q : String) (i : Nat)
    (h : (subsAt reg q).any (fun x => x.id == i) = true) : 1 ≤ occId reg i := by
  rcases List.any_eq_true.mp h with ⟨x, hx, hxi⟩
  have h1 : 1 ≤ countIdIn (subsAt reg q) x.id := countIdIn_pos_of_mem hx
  have h2 : x.id = i := by simpa using hxi
  rw [h2] at h1
  exact Nat.le_trans h1 (countIdIn_le_occId reg q i)

theorem runPass_occ0 (passPath : String) (mk : Engine → JSVal) (cp : String)
    (i : Nat) : ∀ (snap : List Subscriber) (e : Engine),
    occId e.registry i = 0 →
      i ∉ invokeIds (runPass passPath mk cp snap e).2 ∧
      occId (runPass passPath mk cp snap e).1.registry i = 0
  | [], e, h => by
    simp [runPass, invokeIds, h]
  | s :: rest, e, h => by
    simp only [runPass]
    split
    · next hmem =>
      have hne : s.id ≠ i := by
        intro hsi
        have := any_id_occ_pos e.registry passPath i (hsi ▸ hmem)
        omega
      have hact : occId (runActions e s.id s.cb).1.registry i = 0 :=
        Nat.le_antisymm (h ▸ runActions_occ_le e s.id s.cb i) (Nat.zero_le _)
      have hrec := runPass_occ0 passPath mk cp i rest (runActions e s.id s.cb).1 hact
      refine ⟨?_, hrec.2⟩
      rw [invokeIds_cons_invoke, invokeIds_append, runActions_no_invoke,
        List.nil_append]
      simp only [List.mem_cons]
      push_neg
      exact ⟨fun hx => hne hx.symm, hrec.1⟩
    · exact runPass_occ0 passPath mk cp i rest e h

theorem pathPass_occ0 (e : Engine) (cp : String) (i : Nat)
    (h : occId e.registry i = 0) :
    i ∉ invokeIds (pathPassRun e cp).2 ∧
    occId (pathPassRun e cp).1.registry i = 0 := by
  rw [pathPassRun]
  split
  · exact runPass_occ0 cp _ cp i _ e h
  · simp [invokeIds, h]

theorem globalPass_occ0 (e : Engine) (r : Nat) (cp : String) (i : Nat)
    (h : occId e.registry i = 0) :
    i ∉ invokeIds (globalPassRun e r cp).2 ∧
    occId (globalPassRun e r cp).1.registry i = 0 := by
  rw [globalPassRun]
  split
  · exact runPass_occ0 "*" _ cp i _ e h
  · simp [invokeIds, h]

theorem dispatchBody_occ0 (e : Engine) (r : Nat) (cp : String) (i : Nat)
    (h : occId e.registry i = 0) :
    i ∉ invokeIds (dispatchBody e r cp).2 ∧
    occId (dispatchBody e r cp).1.registry i = 0 := by
  have h1 := pathPass_occ0 e cp i h
  have h2 := globalPass_occ0 (pathPassRun e cp).1 r cp i h1.2
  unfold dispatchBody
  dsimp only
  split
  · constructor
    · rw [invokeIds_append]
      simp only [List.mem_append]
      push_neg
      exact ⟨h1.1, h2.1⟩
    · exact h2.2
  · constructor
    · rw [invokeIds_append]
      simp only [List.mem_append]
      push_neg
      exact ⟨h1.1, h2.1⟩
    · exact h2.2

theorem notifySubs_occ0 (e : Engine) (r : Nat) (cp : String) (i : Nat)
    (h : occId e.registry i = 0) :
    i ∉ invokeIds (notifySubs e r cp).2 ∧
    occId (notifySubs e r cp).1.registry i = 0 := by
  rw [notifySubs]
  split
  · simp [invokeIds, h]
  · split
    · simp [invokeIds, h]
    · exact dispatchBody_occ0 _ r cp i h

theorem runTask_occ0 (e : Engine) (t : Deferred) (i : Nat)
    (h : occId e.registry i = 0) :
    i ∉ invokeIds (runTask e t).2 ∧
    occId (runTask e t).1.registry i = 0 := by
  have key : ∀ (paths : List String) (acc : Engine × List Event),
      occId acc.1.registry i = 0 → i ∉ invokeIds acc.2 →
      i ∉ invokeIds (List.foldl
        (fun (acc : Engine × List Event) p =>
          let r₁ := notifySubs acc.1 t.rootRef p
          (r₁.1, acc.2 ++ r₁.2)) acc paths).2 ∧
      occId (List.foldl
        (fun (acc : Engine × List Event) p =>
          let r₁ := notifySubs acc.1 t.rootRef p
          (r₁.1, acc.2 ++ r₁.2)) acc paths).1.registry i = 0 := by
    intro paths
    induction paths with
    | nil => intro acc h1 h2; exact ⟨h2, h1⟩
    | cons p ps ih =>
      intro acc h1 h2
      have hn := notifySubs_occ0 acc.1 t.rootRef p i h1
      refine ih (_, _) hn.2 ?_
      rw [invokeIds_append]
      simp only [List.mem_append]
      push_neg
      exact ⟨h2, hn.1⟩
  have := key t.paths (e, []) h (by simp [invokeIds])
  exact ⟨this.1, this.2⟩

theorem drive_occ0 (i : Nat) : ∀ (n : Nat) (e : Engine),
    occId e.registry i = 0 →
      i ∉ invokeIds (drive n e).2 ∧ occId (drive n e).1.registry i = 0
  | 0, e, h => by simp [drive, invokeIds, h]
  | n + 1, e, h => by
    rw [drive]
    split
    · simp [invokeIds, h]
    · next t ts heq =>
      have h1 := runTask_occ0 { e with tasks := ts } t i h
      have h2 := drive_occ0 i n (runTask { e with tasks := ts } t).1 h1.2
      refine ⟨?_, h2.2⟩
      rw [invokeIds_append]
      simp only [List.mem_append]
      push_neg
      exact ⟨h1.1, h2.1⟩

theorem hasPath_of_subsAt_ne_nil (reg : Registry) (q : String)
    (h : subsAt reg q ≠ []) : hasPath reg q = true := by
  induction reg with
  | nil => exact absurd rfl h
  | cons ql rest ih =>
    obtain ⟨p0, l⟩ := ql
    rw [subsAt_cons] at h
    by_cases hq : p0 = q
    · simp [hasPath, hq]
    · rw [if_neg hq] at h
      simp [hasPath, ih h]

theorem runPass_cons_mem (passPath : String) (mk : Engine → JSVal) (cp : String)
    (s : Subscriber) (snap : List Subscriber) (e : Engine)
    (hmem : (subsAt e.registry passPath).any (fun x => x.id == s.id) = true) :
    runPass passPath mk cp (s :: snap) e =
      ((runPass passPath mk cp snap (runActions e s.id s.cb).1).1,
        .invoke (passPath == "*") s.id (mk e) cp ::
          ((runActions e s.id s.cb).2 ++
            (runPass passPath mk cp snap (runActions e s.id s.cb).1).2)) := by
  simp only [runPass]
  rw [if_pos hmem]

theorem dispatchBody_registry (e : Engine) (r : Nat) (cp : String) :
    (dispatchBody e r cp).1.registry =
      (globalPassRun (pathPassRun e cp).1 r cp).1.registry := by
  unfold dispatchBody
  dsimp only
  split
  · rfl
  · rfl

/-- C8: if, during the dispatch of a single mutation on path `p`, an
earlier subscriber's callback invokes the unsubscribe handle of a
later subscriber `s2` of the same path — before `s2`'s callback has
run in the current pass — then the removal is immediately effective on
the registry (zero remaining occurrences of `s2`'s identity) and `s2`
receives no notification for this mutation: not in the remainder of
the pass, not in the wildcard pass, and not in any deferred follow-up
pass, for every amount of deferred work `n`. -/
theorem unsub_before_run_suppresses (e : Engine) (r n : Nat) (p : String)
    (s1 s2 : Subscriber) (mid rest : List Subscriber)
    (hreg : subsAt e.registry p = s1 :: (mid ++ s2 :: rest))
    (hcb : s1.cb = [Act.unsub p s2.id])
    (huniq : occId e.registry s2.id = 1)
    (hne : s1.id ≠ s2.id)
    (hp : p ≠ "*")
    (hup : e.isUpdating = false)
    (hcnt : e.updateCount = 0) :
    s2.id ∉ invokeIds (notifySubs e r p).2 ∧
    occId (notifySubs e r p).1.registry s2.id = 0 ∧
    s2.id ∉ invokeIds (drive n (notifySubs e r p).1).2 := by
  have hnot : notifySubs e r p =
      dispatchBody { e with updateCount := e.updateCount + 1, isUpdating := true }
        r p := by
    rw [notifySubs, if_neg (by simp [hup]), if_neg (by rw [hcnt]; decide)]
  set E1 : Engine :=
    { e with updateCount := e.updateCount + 1, isUpdating := true } with hE1
  have hreg' : subsAt E1.registry p = s1 :: (mid ++ s2 :: rest) := hreg
  have hhas : hasPath E1.registry p = true :=
    hasPath_of_subsAt_ne_nil E1.registry p (by rw [hreg']; simp)
  have hppr : pathPassRun E1 p =
      runPass p (fun e' => rsGet e'.tree (some p)) p (s1 :: (mid ++ s2 :: rest)) E1 := by
    rw [pathPassRun, if_pos ⟨hp, hhas⟩, hreg']
  have hmem1 : (subsAt E1.registry p).any (fun x => x.id == s1.id) = true := by
    rw [hreg']
    simp
  have hact : runActions E1 s1.id s1.cb =
      ({ E1 with registry := unsubReg E1.registry p s2.id }, []) := by
    rw [hcb]
    rfl
  have hcnt1 : countIdIn (subsAt e.registry p) s2.id = 1 := by
    have hub : 1 ≤ countIdIn (subsAt e.registry p) s2.id := by
      rw [hreg]
      exact countIdIn_pos_of_mem (by simp)
    have hle := countIdIn_le_occId e.registry p s2.id
    omega
  have hocc0 : occId (unsubReg E1.registry p s2.id) s2.id = 0 := by
    have : occId (unsubReg e.registry p s2.id) s2.id = 0 := by
      rw [occId_unsubReg_exact p s2.id e.registry, hcnt1, huniq]
    exact this
  have hrest := runPass_occ0 p (fun e' => rsGet e'.tree (some p)) p s2.id
    (mid ++ s2 :: rest) { E1 with registry := unsubReg E1.registry p s2.id } hocc0
  have hp1 : s2.id ∉ invokeIds (pathPassRun E1 p).2 ∧
      occId (pathPassRun E1 p).1.registry s2.id = 0 := by
    rw [hppr, runPass_cons_mem _ _ _ _ _ _ hmem1, hact]
    refine ⟨?_, hrest.2⟩
    rw [invokeIds_cons_invoke, List.nil_append]
    simp only [List.mem_cons]
    push_neg
    exact ⟨fun h => hne h.symm, hrest.1⟩
  have hg := globalPass_occ0 (pathPassRun E1 p).1 r p s2.id hp1.2
  have hregd : (dispatchBody E1 r p).1.registry =
      (globalPassRun (pathPassRun E1 p).1 r p).1.registry :=
    dispatchBody_registry E1 r p
  have hmain : s2.id ∉ invokeIds (notifySubs e r p).2 := by
    rw [hnot, dispatchBody_trace, invokeIds_append]
    simp only [List.mem_append]
    push_neg
    exact ⟨hp1.1, hg.1⟩
  have hocc : occId (notifySubs e r p).1.registry s2.id = 0 := by
    rw [hnot, hregd]
    exact hg.2
  exact ⟨hmain, hocc, (drive_occ0 s2.id n (notifySubs e r p).1 hocc).1⟩

/-- C8 witness: subscriber 1 on "a" unsubscribes subscriber 2 of "a"
before 2 runs; 2 is never invoked. -/
theorem unsub_before_run_suppresses_witness :
    (2 ∉ invokeIds (notifySubs
      (mkEngine (.obj []) [("a", [⟨1, [.unsub "a" 2]⟩, ⟨2, [.getObs "a"]⟩])])
      0 "a").2) ∧
    occId (notifySubs
      (mkEngine (.obj []) [("a", [⟨1, [.unsub "a" 2]⟩, ⟨2, [.getObs "a"]⟩])])
      0 "a").1.registry 2 = 0 ∧
    (2 ∉ invokeIds (drive 3 (notifySubs
      (mkEngine (.obj []) [("a", [⟨1, [.unsub "a" 2]⟩, ⟨2, [.getObs "a"]⟩])])
      0 "a").1).2) :=
  unsub_before_run_suppresses
    (mkEngine (.obj []) [("a", [⟨1, [.unsub "a" 2]⟩, ⟨2, [.getObs "a"]⟩])])
    0 3 "a" ⟨1, [.unsub "a" 2]⟩ ⟨2, [.getObs "a"]⟩ [] []
    rfl rfl (by decide) (by decide) (by decide) rfl rfl

/-!
C9: each value-changing dependency firing of a computed entry updates
the cache and, as a side effect, registers one extra permanent no-op
subscriber on `computed.<name>` — a registry mutation counted against
the global 1000-subscriber ceiling.
-/

/-- Each successive recomputed value differs (strict equality) from
the then-cached value. -/
def chainChanges : JSVal → List JSVal → Bool
  | _, [] => true
  | old, v :: vs => !strictEq v old && chainChanges v vs

theorem totalSubs_addSub : ∀ (reg : Registry) (path : String) (s : Subscriber),
    totalSubs (addSub reg path s) = totalSubs reg + 1
  | [], _, _ => by simp [addSub, totalSubs]
  | (q, l) :: rest, path, s => by
    by_cases h : q = path
    · simp [addSub, h, totalSubs]
      omega
    · simp only [addSub, if_neg h, totalSubs, List.map_cons, List.sum_cons]
      have := totalSubs_addSub rest path s
      simp only [totalSubs] at this
      omega

theorem subsAt_addSub_self : ∀ (reg : Registry) (path : String) (s : Subscriber),
    subsAt (addSub reg path s) path = subsAt reg path ++ [s]
  | [], path, s => by simp [addSub, subsAt, subsAt_cons]
  | (q, l) :: rest, path, s => by
    by_cases h : q = path
    · simp only [addSub, if_pos h]
      rw [subsAt_cons, subsAt_cons, if_pos h, if_pos h]
    · simp only [addSub, if_neg h]
      rw [subsAt_cons, subsAt_cons, if_neg h, if_neg h]
      exact subsAt_addSub_self rest path s

theorem cacheFind_cacheSet (c : ComputedCache) (n : String) (v : JSVal) :
    cacheFind (cacheSet c n v) n = some v := by
  induction c with
  | nil => simp [cacheSet, cacheFind]
  | cons kv rest ih =>
    obtain ⟨k, w⟩ := kv
    by_cases h : k = n
    · simp [cacheSet, cacheFind, h]
    · simp [cacheSet, cacheFind, h, ih]

theorem getLast?_cons_or (v : JSVal) (vs : List JSVal) (x : Option JSVal) :
    ((v :: vs).getLast?).or x = (vs.getLast?).or (some v) := by
  cases vs with
  | nil => rfl
  | cons b bs =>
    rw [List.getLast?_cons_cons]
    cases h : (b :: bs).getLast? with
    | none =>
      rw [List.getLast?_eq_none_iff] at h
      cases h
    | some a => rfl

/-- C9: starting from any computed cache and registry, a sequence of
`n` value-changing dependency firings for the entry `name` grows the
total subscriber count by exactly `n` (provided the ceiling of 1000 is
not hit), appends exactly `n` subscribers — all with a no-op callback —
to the set registered on path `computed.<name>`, and leaves the cache
holding the last recomputed value. -/
theorem computed_dep_growth (cache : ComputedCache) (reg : Registry) (nid : Nat)
    (name : String) (vs : List JSVal)
    (hchain : chainChanges ((cacheFind cache name).getD .undefined) vs = true)
    (hroom : totalSubs reg + vs.length ≤ 1000) :
    totalSubs (computedDepFires cache reg nid name vs).2.1 =
      totalSubs reg + vs.length ∧
    (∃ news : List Subscriber,
      subsAt (computedDepFires cache reg nid name vs).2.1 ("computed." ++ name) =
        subsAt reg ("computed." ++ name) ++ news ∧
      news.length = vs.length ∧ ∀ s ∈ news, s.cb = []) ∧
    cacheFind (computedDepFires cache reg nid name vs).1 name =
      (vs.getLast?).or (cacheFind cache name) := by
  induction vs generalizing cache reg nid with
  | nil =>
    refine ⟨by simp [computedDepFires], ⟨[], by simp [computedDepFires], rfl, by simp⟩, ?_⟩
    simp [computedDepFires, Option.or]
  | cons v vs ih =>
    rw [chainChanges, Bool.and_eq_true, Bool.not_eq_true'] at hchain
    have hfire : computedDepFire cache reg nid name v =
        (cacheSet cache name v, subscribeReg reg ("computed." ++ name) [] nid,
          nid + 1) := by
      rw [computedDepFire, if_neg (by simp [hchain.1])]
    have hsub : subscribeReg reg ("computed." ++ name) [] nid =
        addSub reg ("computed." ++ name) ⟨nid, []⟩ := by
      rw [subscribeReg, if_neg (by simp at hroom ⊢; omega)]
    have hstep : computedDepFires cache reg nid name (v :: vs) =
        computedDepFires (cacheSet cache name v)
          (addSub reg ("computed." ++ name) ⟨nid, []⟩) (nid + 1) name vs := by
      rw [computedDepFires, hfire, hsub]
    have hch' : chainChanges ((cacheFind (cacheSet cache name v) name).getD .undefined) vs = true := by
      rw [cacheFind_cacheSet]
      exact hchain.2
    have hroom' : totalSubs (addSub reg ("computed." ++ name) ⟨nid, []⟩) + vs.length ≤ 1000 := by
      rw [totalSubs_addSub]
      simp at hroom
      omega
    have := ih (cacheSet cache name v) (addSub reg ("computed." ++ name) ⟨nid, []⟩)
      (nid + 1) hch' hroom'
    rw [hstep]
    refine ⟨?_, ?_, ?_⟩
    · rw [this.1, totalSubs_addSub]
      simp
      omega
    · obtain ⟨news, hn1, hn2, hn3⟩ := this.2.1
      refine ⟨⟨nid, []⟩ :: news, ?_, by simp [hn2], ?_⟩
      · rw [hn1, subsAt_addSub_self]
        simp
      · intro s hs
        rcases List.mem_cons.mp hs with h | h
        · rw [h]
        · exact hn3 s h
    · rw [this.2.2, cacheFind_cacheSet, getLast?_cons_or]

/-- C9 witness: two value-changing firings from an empty registry. -/
theorem computed_dep_growth_witness :
    totalSubs (computedDepFires [] [] 10 "full" [.str "A", .str "B"]).2.1 = 0 + 2 ∧
    cacheFind (computedDepFires [] [] 10 "full" [.str "A", .str "B"]).1 "full" =
      (([.str "A", .str "B"] : List JSVal).getLast?).or (cacheFind [] "full") :=
  ⟨(computed_dep_growth [] [] 10 "full" [.str "A", .str "B"] (by decide) (by decide)).1,
   (computed_dep_growth [] [] 10 "full" [.str "A", .str "B"] (by decide) (by decide)).2.2⟩

/-!
C10: in a deferred pass, wildcard subscribers receive the root object
reference captured when the outer notify began; when the deferred
mutation was an object-merge `set` the root was replaced by a fresh
object, so the captured reference is the stale pre-merge root, while a
deferred path notification reads through `getValue` and sees the
then-current value.  Scenario: subscriber 1 on "a.b" merges `{c: 2}`
(replacing the root) and then sets "d" to 3 (mutating the new root);
subscriber 3 listens on "d", subscriber 2 is a wildcard.
-/

def c10Engine : Engine :=
  mkEngine (.obj [("a", .obj [("b", .num 0)])])
    [("a.b", [⟨1, [.setMerge [("c", .num 2)], .setPath "d" (.num 3)]⟩]),
     ("d", [⟨3, []⟩]),
     ("*", [⟨2, []⟩])]

/-- C10: after `set("a.b", 1)` the dispatch invokes the path
subscriber, whose merge replaces the root and whose path-set mutates
the new root; the deferred pass then hands every wildcard invocation
the stale pre-merge root `{a: {b: 1}}` (captured when the outer notify
began) while the "d" path subscriber reads the then-current value `3`;
the current tree at that moment is `{a: {b: 1}, c: 2, d: 3}`, which
differs from what the wildcards saw. -/
theorem deferred_wildcard_sees_stale_root :
    (rsUserSetPath c10Engine "a.b" (.num 1)).2 =
      [.invoke false 1 (.num 1) "a.b",
       .invoke true 2 (.obj [("a", .obj [("b", .num 1)])]) "a.b"] ∧
    (drive 1 (rsUserSetPath c10Engine "a.b" (.num 1)).1).2 =
      [.invoke true 2 (.obj [("a", .obj [("b", .num 1)])]) "*",
       .invoke false 3 (.num 3) "d",
       .invoke true 2 (.obj [("a", .obj [("b", .num 1)])]) "d"] ∧
    (drive 1 (rsUserSetPath c10Engine "a.b" (.num 1)).1).1.tree =
      .obj [("a", .obj [("b", .num 1)]), ("c", .num 2), ("d", .num 3)] ∧
    JSVal.obj [("a", .obj [("b", .num 1)])] ≠
      .obj [("a", .obj [("b", .num 1)]), ("c", .num 2), ("d", .num 3)] := by
  refine ⟨rfl, rfl, rfl, ?_⟩
  simp
